import Mathlib

-- Verification development for rapidfuzz_query.py: a person-name checker that
-- normalizes a raw name, retrieves candidates from an external store through
-- escalating tiers (key-based narrowing, full-text, substring), ranks them by a
-- fuzzy similarity score, and decides between auto-correction and suggestions.
--
-- Texts are modelled as `List Char`; similarity scores as `ℚ`; the external
-- store as a record of lookup functions; SQL `LIMIT n` as `List.take n`.

namespace RFQ

-- ---------------------------------------------------------------------------
-- Configuration constants (rapidfuzz_query.py lines 42-48)
-- ---------------------------------------------------------------------------

/-- Auto-correct threshold `AUTO_SCORE = 90`. -/
def AUTO_SCORE : ℚ := 90

/-- Margin threshold `MIN_MARGIN = 5`. -/
def MIN_MARGIN : ℚ := 5

/-- Number of suggestions kept, `TOP_K = 10`. -/
def TOP_K : Nat := 10

/-- Row cap of the first retrieval tier, `PREFIX_LIMIT = 5000`. -/
def PREFIX_LIMIT : Nat := 5000

/-- Row cap of the full-text tier, `FTX_LIMIT = 20000`. -/
def FTX_LIMIT : Nat := 20000

/-- Row cap of the LIKE tier, `LIKE_LIMIT = 20000`. -/
def LIKE_LIMIT : Nat := 20000

/-- Escalation threshold `MIN_CANDIDATES_OK = 200`. -/
def MIN_CANDIDATES_OK : Nat := 200

-- ---------------------------------------------------------------------------
-- Normalizer (rapidfuzz_query.py lines 68-97)
-- ---------------------------------------------------------------------------

/-- Whitespace as recognized by Python `str.strip()` / `\s` (the ASCII part:
space, tab, newline, carriage return, vertical tab, form feed). -/
def isSpacePy (c : Char) : Bool :=
  c == ' ' || c == Char.ofNat 9 || c == Char.ofNat 10 || c == Char.ofNat 13 ||
    c == Char.ofNat 11 || c == Char.ofNat 12

/-- The character class kept by the regex `[^0-9a-zA-ZÀ-ÿ ]+` (line 68): ASCII
digits, ASCII letters, the Latin-1 range U+00C0..U+00FF, and the space. -/
def keptChar (c : Char) : Bool :=
  decide (48 ≤ c.toNat ∧ c.toNat ≤ 57) || decide (97 ≤ c.toNat ∧ c.toNat ≤ 122) ||
    decide (65 ≤ c.toNat ∧ c.toNat ≤ 90) || decide (192 ≤ c.toNat ∧ c.toNat ≤ 255) ||
    c == ' '

/-- The single-character part of Python `str.lower()`, exact on every mapping
whose input or output meets the kept class `[0-9a-zA-ZÀ-ÿ ]`: ASCII `A`-`Z`
and the Latin-1 uppercase range U+00C0..U+00DE (excluding `×` U+00D7) map 32
code points up, and the four isolated characters whose lowercase lands back in
Latin-1 are mapped explicitly (`Ÿ` U+0178 → `ÿ` U+00FF, `ẞ` U+1E9E → `ß`
U+00DF, the Kelvin sign U+212A → `k`, the Angstrom sign U+212B → `å` U+00E5).
Every other character is left unchanged: its real lowercase (when it has one)
stays outside the kept class, so both it and its image are replaced by a
space in the next normalization stage and the result is the same. -/
def lowerChar (c : Char) : Char :=
  if 65 ≤ c.toNat ∧ c.toNat ≤ 90 then Char.ofNat (c.toNat + 32)
  else if 192 ≤ c.toNat ∧ c.toNat ≤ 222 ∧ c.toNat ≠ 215 then Char.ofNat (c.toNat + 32)
  else if c.toNat = 376 then Char.ofNat 255
  else if c.toNat = 7838 then Char.ofNat 223
  else if c.toNat = 8490 then Char.ofNat 107
  else if c.toNat = 8491 then Char.ofNat 229
  else c

/-- Python `str.lower()` at the character-to-string level: `İ` U+0130 is the
one character whose unconditional lowercase is longer than one character
(`i` followed by the combining dot above U+0307); everything else lowers
through `lowerChar`.  (The contextual final-sigma rule sends `Σ` to `σ` or
`ς`, both outside the kept class, so this character-wise model normalizes
identically.) -/
def lowerPy (c : Char) : List Char :=
  if c.toNat = 304 then [Char.ofNat 105, Char.ofNat 775]
  else [lowerChar c]

/-- Drop leading Python whitespace (the left half of `str.strip()`). -/
def lstripL (l : List Char) : List Char := l.dropWhile isSpacePy

/-- Drop trailing Python whitespace (the right half of `str.strip()`). -/
def rstripL : List Char → List Char
  | [] => []
  | c :: cs =>
    let r := rstripL cs
    if r.isEmpty then (if isSpacePy c then [] else [c]) else c :: r

/-- Python `str.strip()`. -/
def stripL (l : List Char) : List Char := rstripL (lstripL l)

/-- The regex substitution `[^0-9a-zA-ZÀ-ÿ ]+` → `" "` (line 84): each maximal
run of non-kept characters becomes a single space.  The `Bool` flag records
whether the previous character was part of such a run. -/
def subNonKeptAux : Bool → List Char → List Char
  | _, [] => []
  | inRun, c :: cs =>
    if keptChar c then c :: subNonKeptAux false cs
    else if inRun then subNonKeptAux true cs
    else ' ' :: subNonKeptAux true cs

/-- Entry point of the `[^0-9a-zA-ZÀ-ÿ ]+` → `" "` substitution. -/
def subNonKept (l : List Char) : List Char := subNonKeptAux false l

/-- The regex substitution `\s+` → `" "` (line 85): each maximal run of
whitespace becomes a single space. -/
def subSpacesAux : Bool → List Char → List Char
  | _, [] => []
  | inRun, c :: cs =>
    if isSpacePy c then
      if inRun then subSpacesAux true cs else ' ' :: subSpacesAux true cs
    else c :: subSpacesAux false cs

/-- Entry point of the `\s+` → `" "` substitution. -/
def subSpaces (l : List Char) : List Char := subSpacesAux false l

/-- Two characters that are not both whitespace: the adjacency invariant of a
whitespace-collapsed string. -/
def spacedApart (a b : Char) : Prop := ¬(isSpacePy a = true ∧ isSpacePy b = true)

/-- `normalize_name` on character lists (lines 71-86): strip, lowercase,
replace runs of non-kept characters by a space, collapse whitespace, strip. -/
def normalizeList (l : List Char) : List Char :=
  stripL (subSpaces (subNonKept ((stripL l).flatMap lowerPy)))

/-- `normalize_name` (lines 71-86).  The Python `(s or "")` guard for `None`
has no counterpart because Lean strings are never null. -/
def normalize_name (s : String) : String := String.mk (normalizeList s.data)

/-- `to_key` (lines 88-97): the normalized name with the spaces removed. -/
def to_key (s : String) : String :=
  String.mk ((normalizeList s.data).filter (fun c => c != ' '))

/-- `build_boolean_query` (lines 99-117): every token is required (leading
`+`), tokens of length at least 4 get a trailing `*` wildcard, and the parts
are joined with single spaces. -/
def build_boolean_query (tokens : List (List Char)) : List Char :=
  List.intercalate [' ']
    (tokens.map (fun t => if 4 ≤ t.length then '+' :: (t ++ ['*']) else '+' :: t))

-- ---------------------------------------------------------------------------
-- Similarity scorer.  rapidfuzz (`fuzz.WRatio`, `process.extract`) is an
-- external library, so the scorer is modelled from the spec.
-- ---------------------------------------------------------------------------

/-- Length of a longest common subsequence of two character lists; the basis of
the edit-distance ("Indel") similarity. -/
def lcsLen : List Char → List Char → Nat
  | [], _ => 0
  | _ :: _, [] => 0
  | a :: as, b :: bs =>
    if a = b then lcsLen as bs + 1
    else max (lcsLen (a :: as) bs) (lcsLen as (b :: bs))
termination_by a b => a.length + b.length

/-- Modelled from the spec: the "full-string edit-distance-based ratio" of the
similarity scorer (rapidfuzz `fuzz.ratio`, not part of this repository): the
normalized Indel similarity `100 * (|a| + |b| - dist) / (|a| + |b|)`, which
equals `100 * 2 * lcs / (|a| + |b|)`; two empty strings score 100. -/
def ratioQ (a b : List Char) : ℚ :=
  if a.length + b.length = 0 then 100
  else mkRat (200 * lcsLen a b) (a.length + b.length)

/-- All contiguous windows of length `n` of a list (the candidate alignments of
the best-aligned-substring ratio). -/
def windows (n : Nat) : List Char → List (List Char)
  | [] => if n = 0 then [[]] else []
  | c :: cs => if n ≤ cs.length + 1 then (c :: cs).take n :: windows n cs else []

/-- Modelled from the spec: the raw "best-aligned-substring ratio" of the
shorter string `s` against the longer string `l` (rapidfuzz
`fuzz.partial_ratio`, not part of this repository): the best full ratio of `s`
against any window of `l` of length `|s|`. -/
def bestWindowScore (s l : List Char) : ℚ :=
  ((windows s.length l).map (fun w => ratioQ s w)).foldr max 0

/-- Modelled from the spec: the "best-aligned-substring (`partial`) ratio with
a length-difference discount" of the scorer (rapidfuzz, not part of this
repository): the best window score of the shorter string inside the longer
one, discounted by 9/10 for mild length differences and by 6/10 when the
longer string is more than 8 times the shorter. -/
def partRatioScore (a b : List Char) : ℚ :=
  (if a.length ≤ b.length then bestWindowScore a b else bestWindowScore b a) *
    (if max a.length b.length ≤ 8 * min a.length b.length then (9 : ℚ) / 10 else (6 : ℚ) / 10)

/-- Lexicographic comparison of character lists, used only to fix the token
order of the token-set canonical form. -/
def lexLe : List Char → List Char → Bool
  | [], _ => true
  | _ :: _, [] => false
  | c :: cs, d :: ds => if c = d then lexLe cs ds else decide (c.toNat < d.toNat)

/-- Whitespace tokenization (Python `str.split()`): maximal runs of
non-whitespace characters, with no empty tokens. -/
def splitWs : List Char → List (List Char)
  | [] => []
  | c :: cs =>
    if isSpacePy c then splitWs cs
    else (c :: cs.takeWhile (fun d => !isSpacePy d)) :: splitWs (cs.dropWhile (fun d => !isSpacePy d))
termination_by l => l.length
decreasing_by
  · simp only [List.length_cons]
    exact Nat.lt_succ_of_le (Nat.le_refl _)
  · simp only [List.length_cons]
    exact Nat.lt_succ_of_le (List.dropWhile_sublist _).length_le

/-- Modelled from the spec: the canonical form behind the "token-set/token-sort
ratio that is insensitive to word order and duplicate tokens" (rapidfuzz, not
part of this repository): sort the whitespace tokens, drop duplicates, and
rejoin with single spaces. -/
def tokenCanon (a : List Char) : List Char :=
  List.intercalate [' '] ((List.insertionSort (fun t u => lexLe t u = true) (splitWs a)).eraseDups)

/-- Modelled from the spec: the token-set/token-sort component of the scorer:
the full ratio of the canonical token forms, hence insensitive to word order
and duplicate tokens. -/
def tokenSetScore (a b : List Char) : ℚ := ratioQ (tokenCanon a) (tokenCanon b)

/-- Modelled from the spec: the composite similarity score (rapidfuzz
`fuzz.WRatio`, not part of this repository): "take the maximum of (a) a
full-string edit-distance-based ratio, (b) a best-aligned-substring
(`partial`) ratio with a length-difference discount, and (c) a
token-set/token-sort ratio". -/
def WRatio (a b : List Char) : ℚ :=
  max (max (ratioQ a b) (partRatioScore a b)) (tokenSetScore a b)

-- ---------------------------------------------------------------------------
-- Data model
-- ---------------------------------------------------------------------------

/-- A candidate row as selected by every query in the script:
`ID_PERSON`, `PERSON_NAME`, `PERSON_NAME_NORM`. -/
structure Row where
  id : Int
  name : List Char
  norm : List Char
deriving DecidableEq

/-- A ranked candidate as produced by `rank_candidates` (lines 360-367): the
row fields plus the `SCORE` value. -/
structure Ranked where
  id : Int
  name : List Char
  norm : List Char
  score : ℚ
deriving DecidableEq

-- ---------------------------------------------------------------------------
-- Python dict semantics (insertion-ordered, last write wins), needed for the
-- dict comprehensions in `rank_candidates` (lines 355 and 358).
-- ---------------------------------------------------------------------------

/-- Insert a binding into an insertion-ordered dictionary: an existing key
keeps its position and gets the new value; a new key goes to the back. -/
def dictInsert {α : Type} (k : Int) (v : α) : List (Int × α) → List (Int × α)
  | [] => [(k, v)]
  | (k', v') :: rest => if k' = k then (k', v) :: rest else (k', v') :: dictInsert k v rest

/-- The dictionary built by a Python dict comprehension over `ps`. -/
def dictOfList {α : Type} (ps : List (Int × α)) : List (Int × α) :=
  ps.foldl (fun d kv => dictInsert kv.1 kv.2 d) []

/-- Dictionary lookup. -/
def dlookup {α : Type} (k : Int) : List (Int × α) → Option α
  | [] => none
  | (k', v) :: rest => if k' = k then some v else dlookup k rest

-- ---------------------------------------------------------------------------
-- Ranker (rapidfuzz `process.extract` modelled from the spec; the surrounding
-- `rank_candidates` from lines 338-368)
-- ---------------------------------------------------------------------------

/-- The order in which `process.extract` returns matches: descending score. -/
def scoreRel (x y : List Char × ℚ × Int) : Prop := y.2.1 ≤ x.2.1

instance : DecidableRel scoreRel := fun x y => inferInstanceAs (Decidable (y.2.1 ≤ x.2.1))

instance : IsTotal (List Char × ℚ × Int) scoreRel := ⟨fun x y => le_total y.2.1 x.2.1⟩

instance : IsTrans (List Char × ℚ × Int) scoreRel := ⟨fun _ _ _ h h' => le_trans h' h⟩

/-- Modelled from the spec: rapidfuzz `process.extract` (line 356, not part of
this repository) over a dict of choices: score every entry with the scorer,
sort descending by score, and keep the best `limit` as
`(choice, score, key)` triples. -/
def extract (q : List Char) (choices : List (Int × List Char)) (limit : Nat) :
    List (List Char × ℚ × Int) :=
  (List.insertionSort scoreRel (choices.map (fun kv => (kv.2, WRatio q kv.2, kv.1)))).take limit

/-- Fallback row for the (unreachable) case of a match key that is absent from
`id_to_row`; Python would raise `KeyError` there. -/
def dfltRow : Row := ⟨0, [], []⟩

/-- `rank_candidates` (lines 338-368): build the `id -> norm` choices dict,
extract the `TOP_K` best matches, and attach the full row fields (taken from
the `id -> row` dict) plus the score. -/
def rank_candidates (q_norm : List Char) (candidates : List Row) : List Ranked :=
  let choices := dictOfList (candidates.map (fun r => (r.id, r.norm)))
  let ms := extract q_norm choices TOP_K
  let id_to_row := dictOfList (candidates.map (fun r => (r.id, r)))
  ms.map (fun m =>
    let r := (dlookup m.2.2 id_to_row).getD dfltRow
    { id := r.id, name := r.name, norm := r.norm, score := m.2.1 })

-- ---------------------------------------------------------------------------
-- Decision policy (lines 370-391) and the result mapping of `main`
-- (lines 468-484)
-- ---------------------------------------------------------------------------

/-- The diagnostic third component of `decide_autocorrect`'s result: the
Python code formats it as a string; only its constructor and the embedded
score/margin have observable content. -/
inductive Reason where
  | no_candidates : Reason
  | auto (score margin : ℚ) : Reason
  | suggest (score margin : ℚ) : Reason
deriving DecidableEq

/-- `decide_autocorrect` (lines 370-391): empty list is never auto-corrected;
otherwise compare `top1.SCORE` with `AUTO_SCORE` and the margin over the
second candidate (999.0 when there is none) with `MIN_MARGIN`. -/
def decide_autocorrect (ranked : List Ranked) : Bool × Option Ranked × Reason :=
  match ranked with
  | [] => (false, none, Reason.no_candidates)
  | top1 :: rest =>
    let margin : ℚ :=
      match rest.head? with
      | some top2 => top1.score - top2.score
      | none => 999
    if AUTO_SCORE ≤ top1.score ∧ MIN_MARGIN ≤ margin then
      (true, some top1, Reason.auto top1.score margin)
    else (false, some top1, Reason.suggest top1.score margin)

/-- The `MatchResult` variants surfaced by `main` (lines 439-484). -/
inductive MatchResult where
  | exact (r : Row) : MatchResult
  | autoCorrected (best : Ranked) : MatchResult
  | suggestions (ranked : List Ranked) : MatchResult
  | noMatch : MatchResult
deriving DecidableEq

/-- The decision `main` derives from a ranked list (lines 468-484): no
candidates prints "No candidates found" (`noMatch`); `auto` plus a best row
prints the auto-correction; anything else prints the suggestions. -/
def decision (ranked : List Ranked) : MatchResult :=
  let r := decide_autocorrect ranked
  if ranked.isEmpty then MatchResult.noMatch
  else
    match r.1, r.2.1 with
    | true, some best => MatchResult.autoCorrected best
    | _, _ => MatchResult.suggestions ranked

-- ---------------------------------------------------------------------------
-- Candidate source and retrieval escalator (lines 198-333)
-- ---------------------------------------------------------------------------

/-- The external candidate source: the lookups the script issues, as functions
from the query argument to the (uncapped) row list; `LIMIT n` is applied by
the caller as `List.take n`.  `hasFulltext` is the capability flag from
`db_has_fulltext`. -/
structure Store where
  hasFulltext : Bool
  exactQ : List Char → Option Row
  prefixQ : List Char → List Row
  fulltextQ : List Char → List Row
  likeQ : List Char → List Row

/-- One candidate-source call, as recorded in the call trace.  Each tier's
`LIMIT` argument is the fixed constant of that tier (`PREFIX_LIMIT`,
`FTX_LIMIT`, `LIKE_LIMIT`), so the trace records only the query argument. -/
inductive Call where
  | exact (q : List Char) : Call
  | pfx (p : List Char) : Call
  | ftx (q : List Char) : Call
  | like (t : List Char) : Call
deriving DecidableEq

/-- The prefix length of the first tier (line 260):
`6 if len(q_key) >= 6 else max(3, len(q_key))`. -/
def prefLenOf (q_key : List Char) : Nat :=
  if 6 ≤ q_key.length then 6 else max 3 q_key.length

/-- The lookup prefix of the first tier (line 261): `q_key[:prefix_len]`. -/
def prefOf (q_key : List Char) : List Char := q_key.take (prefLenOf q_key)

/-- The rows fetched by the first tier (lines 264-273): key-prefix lookup
capped at `PREFIX_LIMIT`. -/
def tier1rows (st : Store) (q_key : List Char) : List Row :=
  (st.prefixQ (prefOf q_key)).take PREFIX_LIMIT

/-- The tokens of the fallback tiers (lines 283-284): whitespace tokens of the
normalized query, longest first (ties keep original order), at most 3. -/
def tokensOf (q_norm : List Char) : List (List Char) :=
  (List.insertionSort (fun t u : List Char => u.length ≤ t.length) (splitWs q_norm)).take 3

/-- The merge step of the fallback tiers (lines 301-303 and 326-328): append
the new rows whose id was not yet accumulated.  The `seen` set is computed
once, before extending, so duplicates inside `newRows` are not filtered. -/
def mergeById (rows newRows : List Row) : List Row :=
  rows ++ newRows.filter (fun r => !(rows.map Row.id).contains r.id)

/-- The substring ("LIKE") tier (lines 309-331): when tokens exist, fetch rows
whose normalized name contains the longest token, capped at `LIKE_LIMIT`, and
merge them (deduplicating against the accumulated rows). -/
def tier3step (st : Store) (tokens : List (List Char)) (rows : List Row) (tr : List Call) :
    List Row × List Call :=
  match tokens with
  | [] => (rows, tr)
  | t :: _ =>
    let rows3 := (st.likeQ t).take LIKE_LIMIT
    let tr3 := tr ++ [Call.like t]
    if rows3.isEmpty then (rows, tr3) else (mergeById rows rows3, tr3)

/-- The accumulated rows after the full-text tier has been given its chance
(lines 277-307): the first-tier rows, merged with the full-text rows when that
tier ran and returned anything. -/
def tier2accum (st : Store) (q_norm q_key : List Char) : List Row :=
  let rows := tier1rows st q_key
  let tokens := tokensOf q_norm
  if st.hasFulltext && !tokens.isEmpty then
    let rows2 := (st.fulltextQ (build_boolean_query tokens)).take FTX_LIMIT
    if rows2.isEmpty then rows else mergeById rows rows2
  else rows

/-- `fetch_candidates` (lines 230-333), paired with the trace of
candidate-source calls it issues: prefix tier, then (below the
`MIN_CANDIDATES_OK` threshold) the optional full-text tier, then (still below
the threshold) the LIKE tier. -/
def fetch_candidates (st : Store) (q_norm q_key : List Char) : List Row × List Call :=
  let pref := prefOf q_key
  let rows := tier1rows st q_key
  let tr1 := [Call.pfx pref]
  if MIN_CANDIDATES_OK ≤ rows.length then (rows, tr1)
  else
    let tokens := tokensOf q_norm
    if st.hasFulltext && !tokens.isEmpty then
      let fq := build_boolean_query tokens
      let rows2 := (st.fulltextQ fq).take FTX_LIMIT
      let tr2 := tr1 ++ [Call.ftx fq]
      if rows2.isEmpty then tier3step st tokens rows tr2
      else
        let merged := mergeById rows rows2
        if MIN_CANDIDATES_OK ≤ merged.length then (merged, tr2)
        else tier3step st tokens merged tr2
    else tier3step st tokens rows tr1

-- ---------------------------------------------------------------------------
-- The per-query pipeline of `main` (lines 423-484)
-- ---------------------------------------------------------------------------

/-- One iteration of the interactive loop of `main` (lines 430-484), for an
input that passed the non-empty / non-quit guards: normalize, try the exact
lookup, on a miss escalate, rank, and decide.  The second component is the
trace of candidate-source calls issued. -/
def process_query (st : Store) (raw : String) : MatchResult × List Call :=
  let q_norm := (normalize_name raw).data
  let q_key := (to_key raw).data
  match st.exactQ q_norm with
  | some hit => (MatchResult.exact hit, [Call.exact q_norm])
  | none =>
    let fc := fetch_candidates st q_norm q_key
    let ranked := rank_candidates q_norm fc.1
    (decision ranked, Call.exact q_norm :: fc.2)

-- ---------------------------------------------------------------------------
-- A table-backed store, with the lookup semantics spelled out in the SQL
-- statements of the script (lines 216-224, 264-272, 288-296, 313-321)
-- ---------------------------------------------------------------------------

/-- A row of `T_WC_T2S_PERSON` as far as the script reads it: id, display
name, normalized name, and the key column used by the first tier. -/
structure TblRow where
  id : Int
  name : List Char
  norm : List Char
  key : List Char
deriving DecidableEq

/-- Projection onto the three selected columns. -/
def rowOfTbl (t : TblRow) : Row := ⟨t.id, t.name, t.norm⟩

/-- Substring containment (`LIKE '%t%'`): some suffix of `l` starts with
`pat`. -/
def hasSub (pat : List Char) : List Char → Bool
  | [] => pat.isEmpty
  | c :: cs => pat.isPrefixOf (c :: cs) || hasSub pat cs

/-- The store over a concrete table, with the SQL semantics of the script's
queries: exact equality on the normalized column (`LIMIT 1` keeps the first
row), `key LIKE pref%` for the first tier, `norm LIKE '%token%'` for the LIKE
tier.  The normalized query and key contain no SQL wildcard characters, so
`LIKE` is plain prefix/substring matching.  Full-text index semantics belong
to the backend and stay a parameter. -/
def tableStore (tbl : List TblRow) (hasFtx : Bool) (ftxSem : List Char → List TblRow) : Store where
  hasFulltext := hasFtx
  exactQ := fun qn => ((tbl.filter (fun t => t.norm = qn)).map rowOfTbl).head?
  prefixQ := fun p => (tbl.filter (fun t => t.key.take p.length = p)).map rowOfTbl
  fulltextQ := fun q => (ftxSem q).map rowOfTbl
  likeQ := fun tok => (tbl.filter (fun t => hasSub tok t.norm)).map rowOfTbl

-- ---------------------------------------------------------------------------
-- Concrete stores and inputs used to instantiate the theorems below
-- ---------------------------------------------------------------------------

/-- A store that never returns anything. -/
def emptyStore : Store :=
  ⟨false, fun _ => none, fun _ => [], fun _ => [], fun _ => []⟩

/-- A row with id 1. -/
def rowA : Row := ⟨1, ['a'], ['a', 'b', 'c', 'd']⟩

/-- A row with id 2. -/
def rowB : Row := ⟨2, ['b'], ['a', 'b', 'c', 'x']⟩

/-- A store whose full-text lookup returns the same id twice. -/
def dupStore : Store :=
  ⟨true, fun _ => none, fun _ => [], fun _ => [rowA, rowA], fun _ => []⟩

/-- A store with full-text capability whose lookups return a single row. -/
def oneStore : Store :=
  ⟨true, fun _ => none, fun _ => [], fun _ => [rowA], fun _ => []⟩

/-- A store with full-text capability whose lookups return two distinct rows. -/
def twoStore : Store :=
  ⟨true, fun _ => none, fun _ => [], fun _ => [rowA, rowB], fun _ => []⟩

/-- The raw input of the spec's end-to-end example: space, `J`, `ö`, `h`, `n`,
three spaces, `O`, apostrophe, `B`, `r`, `i`, `e`, `n`, space. -/
def rawOBrien : String :=
  String.mk
    [' ', 'J', 'ö', 'h', 'n', ' ', ' ', ' ', 'O', Char.ofNat 39, 'B', 'r', 'i', 'e', 'n', ' ']

-- ---------------------------------------------------------------------------
-- Theorems
-- ---------------------------------------------------------------------------

/-- Closed form of the decision on a non-empty ranked list. -/
theorem decision_cons (t1 : Ranked) (rest : List Ranked) :
    decision (t1 :: rest) =
      if AUTO_SCORE ≤ t1.score ∧
          MIN_MARGIN ≤ (match rest.head? with
            | some t2 => t1.score - t2.score
            | none => (999 : ℚ)) then
        MatchResult.autoCorrected t1
      else MatchResult.suggestions (t1 :: rest) := by
  by_cases hc : AUTO_SCORE ≤ t1.score ∧
      MIN_MARGIN ≤ (match rest.head? with
        | some t2 => t1.score - t2.score
        | none => (999 : ℚ))
  · rw [if_pos hc]
    have h1 : decide_autocorrect (t1 :: rest) =
        (true, some t1, Reason.auto t1.score (match rest.head? with
          | some t2 => t1.score - t2.score
          | none => (999 : ℚ))) := by
      simp only [decide_autocorrect]
      rw [if_pos hc]
    simp only [decision, h1, List.isEmpty_cons, Bool.false_eq_true, if_false]
  · rw [if_neg hc]
    have h1 : decide_autocorrect (t1 :: rest) =
        (false, some t1, Reason.suggest t1.score (match rest.head? with
          | some t2 => t1.score - t2.score
          | none => (999 : ℚ))) := by
      simp only [decide_autocorrect]
      rw [if_neg hc]
    simp only [decision, h1, List.isEmpty_cons, Bool.false_eq_true, if_false]

/-- C1: for every ranked list, the empty list decides `noMatch`; a non-empty
list `top1 :: rest` decides `autoCorrected top1` exactly when `top1.score`
reaches `AUTO_SCORE` and the margin over the second element (unconstrained
when there is no second element) reaches `MIN_MARGIN`, and `suggestions`
otherwise. -/
theorem C1_decision_policy (ranked : List Ranked) :
    (ranked = [] → decision ranked = MatchResult.noMatch) ∧
    (∀ t1 rest, ranked = t1 :: rest →
      (decision ranked = MatchResult.autoCorrected t1 ↔
        AUTO_SCORE ≤ t1.score ∧
          (match rest.head? with
           | some t2 => MIN_MARGIN ≤ t1.score - t2.score
           | none => True)) ∧
      (¬(AUTO_SCORE ≤ t1.score ∧
          (match rest.head? with
           | some t2 => MIN_MARGIN ≤ t1.score - t2.score
           | none => True)) →
        decision ranked = MatchResult.suggestions ranked)) := by
  constructor
  · rintro rfl; rfl
  · rintro t1 rest rfl
    rw [decision_cons]
    cases rest with
    | nil =>
      have h999 : MIN_MARGIN ≤ (999 : ℚ) := by norm_num [MIN_MARGIN]
      by_cases hA : AUTO_SCORE ≤ t1.score
      · simp [hA, h999]
      · simp [hA]
    | cons t2 rest' =>
      by_cases hc : AUTO_SCORE ≤ t1.score ∧ MIN_MARGIN ≤ t1.score - t2.score
      · simp [hc.1, hc.2]
      · rw [if_neg (by simpa using hc)]
        simp only [List.head?_cons]
        exact ⟨⟨fun h => by simp at h, fun h => absurd h hc⟩, fun _ => trivial⟩

/-- Witness for C1 at the spec's decision-boundary example: scores 92 and 85
with the default thresholds give an auto-correction of the top candidate. -/
theorem C1_decision_policy_witness :
    decision [(⟨1, [], [], 92⟩ : Ranked), ⟨2, [], [], 85⟩] =
      MatchResult.autoCorrected ⟨1, [], [], 92⟩ := by
  refine ((C1_decision_policy _).2 ⟨1, [], [], 92⟩ [⟨2, [], [], 85⟩] rfl).1.mpr ?_
  constructor
  · show AUTO_SCORE ≤ (92 : ℚ)
    norm_num [AUTO_SCORE]
  · show MIN_MARGIN ≤ (92 : ℚ) - 85
    norm_num [MIN_MARGIN]

/-- Counterexample for C4: the code keeps Latin-1 letters such as `ö` (the
regex class includes U+00C0..U+00FF, and `str.lower` does not transliterate),
so the spec's example input does not normalize to `"john o brien"`. -/
theorem C4_normalize_example_cex : normalize_name rawOBrien ≠ "john o brien" := by
  with_unfolding_all decide

/-- C4 as amended: the example input normalizes to `"jöhn o brien"` (the
apostrophe becomes a space, whitespace is collapsed and trimmed, letters are
lowercased, and the accented `ö` is kept as-is), with key `"jöhnobrien"`. -/
theorem C4_normalize_example :
    normalize_name rawOBrien = "jöhn o brien" ∧ to_key rawOBrien = "jöhnobrien" := by
  with_unfolding_all decide

/-- Inserting into a dictionary never empties it. -/
theorem dictInsert_ne_nil {α : Type} (k : Int) (v : α) (d : List (Int × α)) :
    dictInsert k v d ≠ [] := by
  cases d with
  | nil => simp [dictInsert]
  | cons p rest =>
    obtain ⟨k', v'⟩ := p
    simp only [dictInsert]
    split <;> simp

/-- Folding dictionary insertions over a non-empty accumulator keeps it
non-empty. -/
theorem foldl_dictInsert_ne_nil {α : Type} (ps : List (Int × α)) (d : List (Int × α))
    (h : d ≠ []) : ps.foldl (fun d kv => dictInsert kv.1 kv.2 d) d ≠ [] := by
  induction ps generalizing d with
  | nil => simpa
  | cons p rest ih => exact ih _ (dictInsert_ne_nil _ _ _)

/-- A dict comprehension over a non-empty list is non-empty. -/
theorem dictOfList_ne_nil {α : Type} (ps : List (Int × α)) (h : ps ≠ []) :
    dictOfList ps ≠ [] := by
  cases ps with
  | nil => cases h rfl
  | cons p rest => exact foldl_dictInsert_ne_nil rest _ (dictInsert_ne_nil _ _ _)

/-- The number of matches returned by the extraction. -/
theorem length_extract (q : List Char) (choices : List (Int × List Char)) (limit : Nat) :
    (extract q choices limit).length = min limit choices.length := by
  unfold extract
  rw [List.length_take, (List.perm_insertionSort _ _).length_eq, List.length_map]

/-- The ranker returns an empty list exactly on an empty candidate list. -/
theorem rank_candidates_eq_nil_iff (q : List Char) (cands : List Row) :
    rank_candidates q cands = [] ↔ cands = [] := by
  constructor
  · intro h
    by_contra hne
    have hmap : cands.map (fun r => (r.id, r.norm)) ≠ [] := by
      simpa using hne
    have hch : dictOfList (cands.map (fun r => (r.id, r.norm))) ≠ [] :=
      dictOfList_ne_nil _ hmap
    have hlen : (extract q (dictOfList (cands.map (fun r => (r.id, r.norm)))) TOP_K).length
        = min TOP_K (dictOfList (cands.map (fun r => (r.id, r.norm)))).length :=
      length_extract _ _ _
    have hms : extract q (dictOfList (cands.map (fun r => (r.id, r.norm)))) TOP_K = [] := by
      simpa only [rank_candidates, List.map_eq_nil_iff] using h
    rw [hms] at hlen
    have hpos : 0 < (dictOfList (cands.map (fun r => (r.id, r.norm)))).length :=
      List.length_pos.2 hch
    have h0 : min TOP_K (dictOfList (cands.map (fun r => (r.id, r.norm)))).length = 0 := by
      simpa using hlen.symm
    rcases Nat.min_eq_zero_iff.mp h0 with h10 | h10
    · exact absurd h10 (by simp [TOP_K])
    · omega
  · rintro rfl; rfl

/-- The decision is `noMatch` exactly on an empty ranked list. -/
theorem decision_eq_noMatch_iff (ranked : List Ranked) :
    decision ranked = MatchResult.noMatch ↔ ranked = [] := by
  cases ranked with
  | nil => simp [decision]
  | cons t rest =>
    rw [decision_cons]
    split <;> simp

/-- The escalator on an empty normalized query and key: the first tier fires
with the empty lookup key, yields whatever the store returns (capped), and no
fallback tier runs because there are no tokens. -/
theorem fetch_candidates_nil (st : Store) :
    fetch_candidates st [] [] = ((st.prefixQ []).take PREFIX_LIMIT, [Call.pfx []]) := by
  have ht : tokensOf ([] : List Char) = [] := by
    simp [tokensOf, splitWs]
  simp only [fetch_candidates, ht, tier1rows, prefOf, prefLenOf]
  norm_num
  intro _
  rfl

set_option maxRecDepth 8000 in
/-- Counterexample for C3: the punctuation-only input `"!!!"` normalizes to
the empty string, yet the pipeline still issues candidate-source calls (an
exact lookup and a prefix lookup). -/
theorem C3_empty_norm_cex :
    normalize_name "!!!" = "" ∧ (process_query emptyStore "!!!").2 ≠ [] := by
  constructor
  · with_unfolding_all decide
  · with_unfolding_all decide

/-- C3 as amended: on an input whose normalized form is empty, the pipeline
does not short-circuit.  It issues an exact lookup with the empty string; on a
hit it returns that row, and on a miss it additionally issues exactly one
prefix lookup with the empty prefix (and no full-text or substring lookup),
returning `NoMatch` exactly when that lookup yields no rows. -/
theorem C3_empty_norm (st : Store) (raw : String) (h : normalize_name raw = "") :
    (∀ hit, st.exactQ [] = some hit →
      process_query st raw = (MatchResult.exact hit, [Call.exact []])) ∧
    (st.exactQ [] = none →
      (process_query st raw).2 = [Call.exact [], Call.pfx []] ∧
      ((process_query st raw).1 = MatchResult.noMatch ↔
        (st.prefixQ []).take PREFIX_LIMIT = [])) := by
  have hn : (normalize_name raw).data = [] := by rw [h]
  have hnl : normalizeList raw.data = [] := hn
  have hk : (to_key raw).data = [] := by
    show (normalizeList raw.data).filter (fun c => c != ' ') = []
    rw [hnl]
    rfl
  constructor
  · intro hit hhit
    simp only [process_query, hn, hk, hhit]
  · intro hmiss
    simp only [process_query, hn, hk, hmiss, fetch_candidates_nil]
    constructor
    · simp
    · rw [decision_eq_noMatch_iff, rank_candidates_eq_nil_iff]

set_option maxRecDepth 8000 in
/-- Witness for the amended C3 at the store that returns nothing and the input
`"!!!"`: the trace is exactly the exact lookup plus the empty-prefix lookup. -/
theorem C3_empty_norm_witness :
    (process_query emptyStore "!!!").2 = [Call.exact [], Call.pfx []] :=
  ((C3_empty_norm emptyStore "!!!" (by with_unfolding_all decide)).2 rfl).1

/-- Merging preserves id-uniqueness when each side is id-unique: appended
rows are filtered against the ids already accumulated. -/
theorem mergeById_nodup (rows news : List Row)
    (h1 : (rows.map Row.id).Nodup) (h2 : (news.map Row.id).Nodup) :
    ((mergeById rows news).map Row.id).Nodup := by
  unfold mergeById
  rw [List.map_append, List.nodup_append]
  refine ⟨h1, ?_, ?_⟩
  · exact ((List.filter_sublist news).map Row.id).nodup h2
  · intro x hx hx'
    obtain ⟨r, hr, rfl⟩ := List.mem_map.1 hx'
    have hpred := List.of_mem_filter hr
    have : r.id ∉ rows.map Row.id := by simpa using hpred
    exact this hx

/-- The LIKE tier preserves id-uniqueness when the rows it fetches are
id-unique. -/
theorem tier3step_nodup (st : Store) (tokens : List (List Char)) (rows : List Row)
    (tr : List Call) (h1 : (rows.map Row.id).Nodup)
    (h3 : ∀ t, (((st.likeQ t).take LIKE_LIMIT).map Row.id).Nodup) :
    (((tier3step st tokens rows tr).1).map Row.id).Nodup := by
  cases tokens with
  | nil => exact h1
  | cons t ts =>
    simp only [tier3step]
    split
    · exact h1
    · exact mergeById_nodup _ _ h1 (h3 t)

set_option maxRecDepth 4000 in
/-- Counterexample for C5: when the full-text tier itself returns the same id
twice, both copies survive the merge (the `seen` set is computed before
extending and never filters within the new batch), so the final candidate list
repeats an id. -/
theorem C5_dedup_cex :
    ¬ ((((fetch_candidates dupStore ['a', 'b', 'c', 'd'] ['a', 'b', 'c', 'd']).1).map
        Row.id).Nodup) := by
  with_unfolding_all decide

/-- C5 as amended: provided every single tier returns an id-unique row list
(as a relational store keyed by a unique id does), the merged candidate list
of the escalator contains no id twice. -/
theorem C5_dedup (st : Store) (q_norm q_key : List Char)
    (h1 : ((tier1rows st q_key).map Row.id).Nodup)
    (h2 : (((st.fulltextQ (build_boolean_query (tokensOf q_norm))).take FTX_LIMIT).map
      Row.id).Nodup)
    (h3 : ∀ t, (((st.likeQ t).take LIKE_LIMIT).map Row.id).Nodup) :
    (((fetch_candidates st q_norm q_key).1).map Row.id).Nodup := by
  simp only [fetch_candidates]
  split
  · exact h1
  · split
    · split
      · exact tier3step_nodup _ _ _ _ h1 h3
      · split
        · exact mergeById_nodup _ _ h1 h2
        · exact tier3step_nodup _ _ _ _ (mergeById_nodup _ _ h1 h2) h3
    · exact tier3step_nodup _ _ _ _ h1 h3

set_option maxRecDepth 4000 in
/-- Witness for the amended C5: a store whose full-text tier returns two rows
with distinct ids yields an id-unique candidate list. -/
theorem C5_dedup_witness :
    (((fetch_candidates twoStore ['a', 'b', 'c', 'd'] ['a', 'b', 'c', 'd']).1).map
      Row.id).Nodup := by
  refine C5_dedup twoStore _ _ ?_ ?_ ?_
  · with_unfolding_all decide
  · with_unfolding_all decide
  · intro t
    exact List.nodup_nil

/-- C2: a full-text lookup is issued only when the first tier accumulated
fewer than `MIN_CANDIDATES_OK` rows, and a LIKE lookup only when the rows
accumulated through the full-text tier are still below `MIN_CANDIDATES_OK`;
once the threshold is met no later tier lookup appears in the trace. -/
theorem C2_escalation (st : Store) (q_norm q_key : List Char) :
    (∀ q, Call.ftx q ∈ (fetch_candidates st q_norm q_key).2 →
      (tier1rows st q_key).length < MIN_CANDIDATES_OK) ∧
    (∀ t, Call.like t ∈ (fetch_candidates st q_norm q_key).2 →
      (tier2accum st q_norm q_key).length < MIN_CANDIDATES_OK) := by
  by_cases hth : MIN_CANDIDATES_OK ≤ (tier1rows st q_key).length
  · have hfc : fetch_candidates st q_norm q_key =
        (tier1rows st q_key, [Call.pfx (prefOf q_key)]) := by
      simp only [fetch_candidates]
      rw [if_pos hth]
    refine ⟨fun q hq => ?_, fun t ht => ?_⟩
    · rw [hfc] at hq
      simp at hq
    · rw [hfc] at ht
      simp at ht
  · by_cases hft : (st.hasFulltext && !(tokensOf q_norm).isEmpty) = true
    · by_cases h2e :
        ((st.fulltextQ (build_boolean_query (tokensOf q_norm))).take FTX_LIMIT).isEmpty = true
      · have hacc : tier2accum st q_norm q_key = tier1rows st q_key := by
          simp only [tier2accum]
          rw [if_pos hft, if_pos h2e]
        exact ⟨fun q _ => Nat.lt_of_not_le hth,
               fun t _ => by rw [hacc]; exact Nat.lt_of_not_le hth⟩
      · by_cases hm : MIN_CANDIDATES_OK ≤ (mergeById (tier1rows st q_key)
            ((st.fulltextQ (build_boolean_query (tokensOf q_norm))).take FTX_LIMIT)).length
        · have hfc : fetch_candidates st q_norm q_key =
              (mergeById (tier1rows st q_key)
                ((st.fulltextQ (build_boolean_query (tokensOf q_norm))).take FTX_LIMIT),
               [Call.pfx (prefOf q_key), Call.ftx (build_boolean_query (tokensOf q_norm))]) := by
            simp only [fetch_candidates]
            rw [if_neg hth, if_pos hft, if_neg h2e, if_pos hm]
            rfl
          refine ⟨fun q _ => Nat.lt_of_not_le hth, fun t ht => ?_⟩
          rw [hfc] at ht
          simp at ht
        · have hacc : tier2accum st q_norm q_key = mergeById (tier1rows st q_key)
              ((st.fulltextQ (build_boolean_query (tokensOf q_norm))).take FTX_LIMIT) := by
            simp only [tier2accum]
            rw [if_pos hft, if_neg h2e]
          exact ⟨fun q _ => Nat.lt_of_not_le hth,
                 fun t _ => by rw [hacc]; exact Nat.lt_of_not_le hm⟩
    · have hacc : tier2accum st q_norm q_key = tier1rows st q_key := by
        simp only [tier2accum]
        rw [if_neg hft]
      exact ⟨fun q _ => Nat.lt_of_not_le hth,
             fun t _ => by rw [hacc]; exact Nat.lt_of_not_le hth⟩

set_option maxRecDepth 4000 in
/-- Witness for C2: a store with full-text capability and a query that reaches
both fallback tiers; the accumulated counts were indeed below the threshold at
each escalation. -/
theorem C2_escalation_witness :
    (tier1rows oneStore ['a', 'b', 'c', 'd']).length < MIN_CANDIDATES_OK ∧
    (tier2accum oneStore ['a', 'b', 'c', 'd'] ['a', 'b', 'c', 'd']).length <
      MIN_CANDIDATES_OK := by
  constructor
  · exact (C2_escalation oneStore ['a', 'b', 'c', 'd'] ['a', 'b', 'c', 'd']).1
      ['+', 'a', 'b', 'c', 'd', '*'] (by with_unfolding_all decide)
  · exact (C2_escalation oneStore ['a', 'b', 'c', 'd'] ['a', 'b', 'c', 'd']).2
      ['a', 'b', 'c', 'd'] (by with_unfolding_all decide)

/-- C8: for a non-empty key, the first tier queries with a prefix of the
query key of length `min(6, len(key))` (hence at least `min(3, len(key))`),
the rows it fetches all have a key starting with that prefix, and their number
is capped at `PREFIX_LIMIT`. -/
theorem C8_tier1_lookup (tbl : List TblRow) (hasFtx : Bool)
    (ftxSem : List Char → List TblRow) (q_key : List Char) (h : q_key ≠ []) :
    prefOf q_key <+: q_key ∧
    (prefOf q_key).length = min 6 q_key.length ∧
    min 3 q_key.length ≤ (prefOf q_key).length ∧
    (tier1rows (tableStore tbl hasFtx ftxSem) q_key).length ≤ PREFIX_LIMIT ∧
    (∀ r ∈ tier1rows (tableStore tbl hasFtx ftxSem) q_key,
      ∃ t ∈ tbl, rowOfTbl t = r ∧ prefOf q_key <+: t.key) := by
  refine ⟨?_, ?_, ?_, ?_, ?_⟩
  · exact List.take_prefix _ _
  · rw [prefOf, List.length_take, prefLenOf]
    split <;> omega
  · rw [prefOf, List.length_take, prefLenOf]
    split <;> omega
  · simp only [tier1rows, List.length_take]
    exact Nat.min_le_left _ _
  · intro r hr
    simp only [tier1rows, tableStore] at hr
    have hr' := List.mem_of_mem_take hr
    obtain ⟨t, ht, rfl⟩ := List.mem_map.1 hr'
    have hp := List.mem_filter.1 ht
    refine ⟨t, hp.1, rfl, ?_⟩
    have heq : t.key.take (prefOf q_key).length = prefOf q_key := by simpa using hp.2
    rw [← heq]
    exact List.take_prefix _ _

/-- Witness for C8 at the two-character key `"ab"`: the lookup prefix is the
whole key, of length `min 6 2 = 2`. -/
theorem C8_tier1_lookup_witness :
    prefOf ['a', 'b'] <+: ['a', 'b'] ∧
    (prefOf ['a', 'b']).length = min 6 (['a', 'b'] : List Char).length :=
  ⟨(C8_tier1_lookup [] false (fun _ => []) ['a', 'b'] (by decide)).1,
   (C8_tier1_lookup [] false (fun _ => []) ['a', 'b'] (by decide)).2.1⟩

/-- `Char.ofNat` round-trips on code points below the surrogate range. -/
theorem toNat_ofNat_small (n : Nat) (h : n < 55296) : (Char.ofNat n).toNat = n := by
  have hv : n.isValidChar := Or.inl h
  simp only [Char.ofNat]
  rw [dif_pos hv]
  show (BitVec.ofNatLt n _).toNat = n
  exact rfl

/-- A character outside all six lowering branches is fixed by `lowerChar`. -/
theorem lowerChar_fix {d : Char} (h1 : ¬(65 ≤ d.toNat ∧ d.toNat ≤ 90))
    (h2 : ¬(192 ≤ d.toNat ∧ d.toNat ≤ 222 ∧ d.toNat ≠ 215))
    (h3 : d.toNat ≠ 376) (h4 : d.toNat ≠ 7838)
    (h5 : d.toNat ≠ 8490) (h6 : d.toNat ≠ 8491) : lowerChar d = d := by
  unfold lowerChar
  rw [if_neg h1, if_neg h2, if_neg h3, if_neg h4, if_neg h5, if_neg h6]

/-- Lowercasing is idempotent: every output of `lowerChar` lies in the
lowercase region 97..255 outside 192..222, which all six branches miss. -/
theorem lowerChar_idem (c : Char) : lowerChar (lowerChar c) = lowerChar c := by
  have step : ∀ n : Nat, 97 ≤ n → n ≤ 255 → ¬(192 ≤ n ∧ n ≤ 222) →
      lowerChar (Char.ofNat n) = Char.ofNat n := by
    intro n hlo hhi hmid
    have ht := toNat_ofNat_small n (by omega)
    exact lowerChar_fix (by rw [ht]; omega) (by rw [ht]; omega) (by rw [ht]; omega)
      (by rw [ht]; omega) (by rw [ht]; omega) (by rw [ht]; omega)
  by_cases h1 : 65 ≤ c.toNat ∧ c.toNat ≤ 90
  · have hc : lowerChar c = Char.ofNat (c.toNat + 32) := by
      unfold lowerChar
      rw [if_pos h1]
    rw [hc]
    exact step _ (by omega) (by omega) (by omega)
  · by_cases h2 : 192 ≤ c.toNat ∧ c.toNat ≤ 222 ∧ c.toNat ≠ 215
    · have hc : lowerChar c = Char.ofNat (c.toNat + 32) := by
        unfold lowerChar
        rw [if_neg h1, if_pos h2]
      rw [hc]
      exact step _ (by omega) (by omega) (by omega)
    · by_cases h3 : c.toNat = 376
      · have hc : lowerChar c = Char.ofNat 255 := by
          unfold lowerChar
          rw [if_neg h1, if_neg h2, if_pos h3]
        rw [hc]
        exact step 255 (by omega) (by omega) (by omega)
      · by_cases h4 : c.toNat = 7838
        · have hc : lowerChar c = Char.ofNat 223 := by
            unfold lowerChar
            rw [if_neg h1, if_neg h2, if_neg h3, if_pos h4]
          rw [hc]
          exact step 223 (by omega) (by omega) (by omega)
        · by_cases h5 : c.toNat = 8490
          · have hc : lowerChar c = Char.ofNat 107 := by
              unfold lowerChar
              rw [if_neg h1, if_neg h2, if_neg h3, if_neg h4, if_pos h5]
            rw [hc]
            exact step 107 (by omega) (by omega) (by omega)
          · by_cases h6 : c.toNat = 8491
            · have hc : lowerChar c = Char.ofNat 229 := by
                unfold lowerChar
                rw [if_neg h1, if_neg h2, if_neg h3, if_neg h4, if_neg h5, if_pos h6]
              rw [hc]
              exact step 229 (by omega) (by omega) (by omega)
            · rw [lowerChar_fix h1 h2 h3 h4 h5 h6, lowerChar_fix h1 h2 h3 h4 h5 h6]

/-- The only kept whitespace character is the plain space. -/
theorem keptChar_space {c : Char} (hk : keptChar c = true) (hs : isSpacePy c = true) :
    c = ' ' := by
  simp only [isSpacePy, Bool.or_eq_true, beq_iff_eq] at hs
  rcases hs with ((((rfl | rfl) | rfl) | rfl) | rfl) | rfl <;>
    first
      | rfl
      | exact absurd hk (by decide)

/-- Every character the non-kept substitution emits is kept. -/
theorem keptChar_of_mem_subNonKeptAux (l : List Char) :
    ∀ (b : Bool), ∀ c ∈ subNonKeptAux b l, keptChar c = true := by
  induction l with
  | nil =>
    intro b c hc
    simp [subNonKeptAux] at hc
  | cons d ds ih =>
    intro b c hc
    by_cases hd : keptChar d = true
    · rw [subNonKeptAux, if_pos hd] at hc
      rcases List.mem_cons.1 hc with rfl | hc
      · exact hd
      · exact ih false c hc
    · rw [subNonKeptAux, if_neg hd] at hc
      cases b with
      | true =>
        simp only [if_pos rfl] at hc
        exact ih true c hc
      | false =>
        simp only [Bool.false_eq_true, if_false] at hc
        rcases List.mem_cons.1 hc with rfl | hc
        · decide
        · exact ih true c hc

/-- Every character the whitespace substitution emits is a space or comes from
the input. -/
theorem mem_of_mem_subSpacesAux (l : List Char) :
    ∀ (b : Bool), ∀ c ∈ subSpacesAux b l, c = ' ' ∨ c ∈ l := by
  induction l with
  | nil =>
    intro b c hc
    simp [subSpacesAux] at hc
  | cons d ds ih =>
    intro b c hc
    by_cases hd : isSpacePy d = true
    · rw [subSpacesAux, if_pos hd] at hc
      cases b with
      | true =>
        simp only [if_pos rfl] at hc
        rcases ih true c hc with h | h
        · exact Or.inl h
        · exact Or.inr (List.mem_cons_of_mem _ h)
      | false =>
        simp only [Bool.false_eq_true, if_false] at hc
        rcases List.mem_cons.1 hc with rfl | hc
        · exact Or.inl rfl
        · rcases ih true c hc with h | h
          · exact Or.inl h
          · exact Or.inr (List.mem_cons_of_mem _ h)
    · rw [subSpacesAux, if_neg hd] at hc
      rcases List.mem_cons.1 hc with rfl | hc
      · exact Or.inr (List.mem_cons_self _ _)
      · rcases ih false c hc with h | h
        · exact Or.inl h
        · exact Or.inr (List.mem_cons_of_mem _ h)

/-- Every character the non-kept substitution emits is a space or comes from
the input. -/
theorem mem_of_mem_subNonKeptAux (l : List Char) :
    ∀ (b : Bool), ∀ c ∈ subNonKeptAux b l, c = ' ' ∨ c ∈ l := by
  induction l with
  | nil =>
    intro b c hc
    simp [subNonKeptAux] at hc
  | cons d ds ih =>
    intro b c hc
    by_cases hd : keptChar d = true
    · rw [subNonKeptAux, if_pos hd] at hc
      rcases List.mem_cons.1 hc with rfl | hc
      · exact Or.inr (List.mem_cons_self _ _)
      · rcases ih false c hc with h | h
        · exact Or.inl h
        · exact Or.inr (List.mem_cons_of_mem _ h)
    · rw [subNonKeptAux, if_neg hd] at hc
      cases b with
      | true =>
        simp only [if_pos rfl] at hc
        rcases ih true c hc with h | h
        · exact Or.inl h
        · exact Or.inr (List.mem_cons_of_mem _ h)
      | false =>
        simp only [Bool.false_eq_true, if_false] at hc
        rcases List.mem_cons.1 hc with rfl | hc
        · exact Or.inl rfl
        · rcases ih true c hc with h | h
          · exact Or.inl h
          · exact Or.inr (List.mem_cons_of_mem _ h)

/-- The whitespace substitution emits no two adjacent whitespace characters,
and in run-mode it never starts with one. -/
theorem chain_subSpacesAux (l : List Char) :
    ∀ (b : Bool),
      List.Chain' spacedApart (subSpacesAux b l) ∧
      (∀ c', (subSpacesAux true l).head? = some c' → isSpacePy c' = false) := by
  induction l with
  | nil =>
    intro b
    constructor
    · simp [subSpacesAux]
    · intro c' h
      simp [subSpacesAux] at h
  | cons d ds ih =>
    intro b
    by_cases hd : isSpacePy d = true
    · constructor
      · cases b with
        | true =>
          rw [subSpacesAux, if_pos hd]
          simp only [if_pos rfl]
          exact (ih true).1
        | false =>
          rw [subSpacesAux, if_pos hd]
          simp only [Bool.false_eq_true, if_false]
          rw [List.chain'_cons']
          refine ⟨fun y hy => ?_, (ih true).1⟩
          intro hcon
          have := (ih true).2 y hy
          rw [this] at hcon
          exact Bool.false_ne_true hcon.2
      · rw [subSpacesAux, if_pos hd]
        simp only [if_pos rfl]
        exact (ih true).2
    · have hd' : isSpacePy d = false := by simpa using hd
      constructor
      · rw [subSpacesAux, if_neg hd]
        rw [List.chain'_cons']
        refine ⟨fun y _ => ?_, (ih false).1⟩
        intro hcon
        rw [hd'] at hcon
        exact Bool.false_ne_true hcon.1
      · rw [subSpacesAux, if_neg hd]
        intro c' h
        rw [List.head?_cons] at h
        obtain rfl : d = c' := by injection h
        exact hd'

/-- The non-kept substitution is the identity on a list of kept characters. -/
theorem subNonKeptAux_id (l : List Char) (h : ∀ c ∈ l, keptChar c = true) :
    ∀ (b : Bool), subNonKeptAux b l = l := by
  induction l with
  | nil => intro b; rfl
  | cons d ds ih =>
    intro b
    have hd : keptChar d = true := h d (List.mem_cons_self _ _)
    rw [subNonKeptAux, if_pos hd, ih (fun c hc => h c (List.mem_cons_of_mem _ hc)) false]

/-- The whitespace substitution is the identity on a list whose whitespace is
all plain spaces with no two adjacent, starting outside a run. -/
theorem subSpacesAux_id (l : List Char) (hsp : ∀ c ∈ l, isSpacePy c = true → c = ' ')
    (hch : List.Chain' spacedApart l) :
    ∀ (b : Bool), (b = true → ∀ c', l.head? = some c' → isSpacePy c' = false) →
      subSpacesAux b l = l := by
  induction l with
  | nil => intro b _; rfl
  | cons d ds ih =>
    intro b hb
    have hch' : List.Chain' spacedApart ds := (List.chain'_cons'.1 hch).2
    have hR : ∀ y ∈ ds.head?, spacedApart d y := (List.chain'_cons'.1 hch).1
    by_cases hd : isSpacePy d = true
    · have hd' : d = ' ' := hsp d (List.mem_cons_self _ _) hd
      cases b with
      | true =>
        have := hb rfl d (by rw [List.head?_cons])
        rw [this] at hd
        exact absurd hd (by simp)
      | false =>
        rw [subSpacesAux, if_pos hd]
        simp only [Bool.false_eq_true, if_false]
        have hds : subSpacesAux true ds = ds := by
          refine ih (fun c hc h => hsp c (List.mem_cons_of_mem _ hc) h) hch' true ?_
          intro _ c' hc'
          have hRd := hR c' hc'
          by_contra hcon
          have : isSpacePy c' = true := by
            cases hx : isSpacePy c'
            · exact absurd hx hcon
            · rfl
          exact hRd ⟨hd, this⟩
        rw [hds, hd']
    · rw [subSpacesAux, if_neg hd]
      rw [ih (fun c hc h => hsp c (List.mem_cons_of_mem _ hc) h) hch' false (by simp)]

/-- `Chain'` passes to the left part of an append. -/
theorem chainOfAppendLeft {R : Char → Char → Prop} (l₁ l₂ : List Char)
    (h : List.Chain' R (l₁ ++ l₂)) : List.Chain' R l₁ :=
  (List.chain'_append.mp h).1

/-- `Chain'` passes to the right part of an append. -/
theorem chainOfAppendRight {R : Char → Char → Prop} (l₁ l₂ : List Char)
    (h : List.Chain' R (l₁ ++ l₂)) : List.Chain' R l₂ :=
  (List.chain'_append.mp h).2.1

/-- The head of a left-stripped list is not whitespace. -/
theorem head_lstripL (l : List Char) :
    ∀ c', (lstripL l).head? = some c' → isSpacePy c' = false := by
  induction l with
  | nil =>
    intro c' h
    simp [lstripL] at h
  | cons d ds ih =>
    intro c' h
    by_cases hd : isSpacePy d = true
    · rw [lstripL, List.dropWhile_cons, if_pos hd] at h
      exact ih c' h
    · rw [lstripL, List.dropWhile_cons, if_neg hd] at h
      rw [List.head?_cons] at h
      obtain rfl : d = c' := by injection h
      simpa using hd

/-- Right-stripping preserves the head element when the result is non-empty. -/
theorem head_rstripL (m : List Char) :
    ∀ c', (rstripL m).head? = some c' → m.head? = some c' := by
  cases m with
  | nil =>
    intro c' h
    simp [rstripL] at h
  | cons d ds =>
    intro c' h
    simp only [rstripL] at h
    by_cases hre : (rstripL ds).isEmpty
    · rw [if_pos hre] at h
      by_cases hd : isSpacePy d = true
      · rw [if_pos hd] at h
        simp at h
      · rw [if_neg hd] at h
        rw [List.head?_cons] at h ⊢
        exact h
    · rw [if_neg hre] at h
      rw [List.head?_cons] at h ⊢
      exact h

/-- The last element of a right-stripped list is not whitespace. -/
theorem getLast_rstripL (m : List Char) :
    ∀ c', (rstripL m).getLast? = some c' → isSpacePy c' = false := by
  induction m with
  | nil =>
    intro c' h
    simp [rstripL] at h
  | cons d ds ih =>
    intro c' h
    simp only [rstripL] at h
    by_cases hre : (rstripL ds).isEmpty
    · rw [if_pos hre] at h
      by_cases hd : isSpacePy d = true
      · rw [if_pos hd] at h
        simp at h
      · rw [if_neg hd] at h
        rw [show ([d].getLast? : Option Char) = some d from rfl] at h
        obtain rfl : d = c' := by injection h
        simpa using hd
    · rw [if_neg hre] at h
      have hne : rstripL ds ≠ [] := by simpa using hre
      obtain ⟨x, xs, hx⟩ := List.exists_cons_of_ne_nil hne
      rw [hx, List.getLast?_cons_cons] at h
      apply ih c'
      rw [hx]
      exact h

/-- A right-stripped list is a prefix of the original. -/
theorem rstripL_isPre (m : List Char) : rstripL m <+: m := by
  induction m with
  | nil => exact ⟨[], rfl⟩
  | cons d ds ih =>
    simp only [rstripL]
    by_cases hre : (rstripL ds).isEmpty
    · rw [if_pos hre]
      by_cases hd : isSpacePy d = true
      · rw [if_pos hd]
        exact ⟨d :: ds, rfl⟩
      · rw [if_neg hd]
        exact ⟨ds, rfl⟩
    · rw [if_neg hre]
      obtain ⟨t, ht⟩ := ih
      exact ⟨t, by rw [List.cons_append, ht]⟩

/-- Left-stripping is the identity when the head is not whitespace. -/
theorem lstripL_id (l : List Char) (h : ∀ c', l.head? = some c' → isSpacePy c' = false) :
    lstripL l = l := by
  cases l with
  | nil => rfl
  | cons d ds =>
    have hd := h d (by rw [List.head?_cons])
    rw [lstripL, List.dropWhile_cons, if_neg (by simp [hd])]

/-- Right-stripping is the identity when the last element is not whitespace. -/
theorem rstripL_id (m : List Char) (h : ∀ c', m.getLast? = some c' → isSpacePy c' = false) :
    rstripL m = m := by
  induction m with
  | nil => rfl
  | cons d ds ih =>
    cases hds : ds with
    | nil =>
      have hd := h d (by rw [hds]; rfl)
      simp only [hds, rstripL]
      rw [if_pos (by rfl), if_neg (by simp [hd])]
    | cons x xs =>
      have hds' : rstripL ds = ds := by
        apply ih
        intro c' hc'
        apply h c'
        rw [hds] at hc' ⊢
        rw [List.getLast?_cons_cons]
        exact hc'
      rw [← hds]
      simp only [rstripL, hds']
      rw [if_neg (by rw [hds]; simp)]

/-- Every character of a normalized string is kept. -/
theorem keptChar_of_mem_normalizeList (l : List Char) :
    ∀ c ∈ normalizeList l, keptChar c = true := by
  intro c hc
  have hm : c ∈ subSpaces (subNonKept ((stripL l).flatMap lowerPy)) := by
    have h1 : c ∈ lstripL (subSpaces (subNonKept ((stripL l).flatMap lowerPy))) :=
      ( rstripL_isPre _).sublist.subset hc
    exact (List.dropWhile_sublist _).subset h1
  rcases mem_of_mem_subSpacesAux _ false c hm with rfl | hcY
  · decide
  · exact keptChar_of_mem_subNonKeptAux _ false c hcY

/-- Every character of a normalized string is fixed by lowercasing. -/
theorem lowerFixed_of_mem_normalizeList (l : List Char) :
    ∀ c ∈ normalizeList l, lowerChar c = c := by
  intro c hc
  have hm : c ∈ subSpaces (subNonKept ((stripL l).flatMap lowerPy)) := by
    have h1 : c ∈ lstripL (subSpaces (subNonKept ((stripL l).flatMap lowerPy))) :=
      ( rstripL_isPre _).sublist.subset hc
    exact (List.dropWhile_sublist _).subset h1
  rcases mem_of_mem_subSpacesAux _ false c hm with rfl | hcY
  · decide
  · rcases mem_of_mem_subNonKeptAux _ false c hcY with rfl | hcX
    · decide
    · obtain ⟨a, -, hca⟩ := List.mem_flatMap.1 hcX
      by_cases h304 : a.toNat = 304
      · rw [show lowerPy a = [Char.ofNat 105, Char.ofNat 775] from by
            simp only [lowerPy]; rw [if_pos h304]] at hca
        rcases List.mem_cons.1 hca with rfl | hca
        · decide
        · rcases List.mem_singleton.1 hca with rfl
          decide
      · rw [show lowerPy a = [lowerChar a] from by
            simp only [lowerPy]; rw [if_neg h304]] at hca
        rcases List.mem_singleton.1 hca with rfl
        exact lowerChar_idem a

/-- A normalized string has no two adjacent whitespace characters. -/
theorem chain_normalizeList (l : List Char) :
    List.Chain' spacedApart (normalizeList l) := by
  have hch : List.Chain' spacedApart (subSpaces (subNonKept ((stripL l).flatMap lowerPy))) :=
    (chain_subSpacesAux _ false).1
  have h1 : List.Chain' spacedApart
      (lstripL (subSpaces (subNonKept ((stripL l).flatMap lowerPy)))) := by
    apply chainOfAppendRight
      (List.takeWhile isSpacePy (subSpaces (subNonKept ((stripL l).flatMap lowerPy))))
      (List.dropWhile isSpacePy (subSpaces (subNonKept ((stripL l).flatMap lowerPy))))
    rw [List.takeWhile_append_dropWhile]
    exact hch
  obtain ⟨t, ht⟩ := rstripL_isPre (lstripL (subSpaces (subNonKept ((stripL l).flatMap lowerPy))))
  apply chainOfAppendLeft _ t
  show List.Chain' spacedApart
    (rstripL (lstripL (subSpaces (subNonKept ((stripL l).flatMap lowerPy)))) ++ t)
  rw [ht]
  exact h1

/-- The head of a normalized string is not whitespace. -/
theorem head_normalizeList (l : List Char) :
    ∀ c', (normalizeList l).head? = some c' → isSpacePy c' = false := by
  intro c' h
  exact head_lstripL _ c' (head_rstripL _ c' h)

/-- The last character of a normalized string is not whitespace. -/
theorem last_normalizeList (l : List Char) :
    ∀ c', (normalizeList l).getLast? = some c' → isSpacePy c' = false :=
  fun c' h => getLast_rstripL _ c' h

/-- Every kept character has a code point at most 255. -/
theorem keptChar_le_255 {c : Char} (h : keptChar c = true) : c.toNat ≤ 255 := by
  simp only [keptChar, Bool.or_eq_true, decide_eq_true_eq, beq_iff_eq] at h
  rcases h with (((h | h) | h) | h) | h
  · omega
  · omega
  · omega
  · omega
  · subst h
    decide

/-- The lowering stage is the identity on a list of lower-fixed characters
other than `İ`. -/
theorem flatMap_lowerPy_id (l : List Char)
    (h : ∀ c ∈ l, lowerChar c = c ∧ c.toNat ≠ 304) : l.flatMap lowerPy = l := by
  induction l with
  | nil => rfl
  | cons d ds ih =>
    obtain ⟨hfix, h304⟩ := h d (List.mem_cons_self _ _)
    rw [List.flatMap_cons,
      show lowerPy d = [lowerChar d] from by simp only [lowerPy]; rw [if_neg h304],
      hfix, List.singleton_append, ih (fun c hc => h c (List.mem_cons_of_mem _ hc))]

/-- Normalization is idempotent on character lists: its output is trimmed,
lowercase, kept-only, and whitespace-collapsed, and each stage is the identity
on such a list. -/
theorem normalizeList_idem (l : List Char) :
    normalizeList (normalizeList l) = normalizeList l := by
  have hkept := keptChar_of_mem_normalizeList l
  have hfix := lowerFixed_of_mem_normalizeList l
  have hch := chain_normalizeList l
  have hhead := head_normalizeList l
  have hlast := last_normalizeList l
  have hstrip : stripL (normalizeList l) = normalizeList l := by
    rw [stripL, lstripL_id _ hhead, rstripL_id _ hlast]
  have hflat : (normalizeList l).flatMap lowerPy = normalizeList l :=
    flatMap_lowerPy_id _ (fun c hc =>
      ⟨hfix c hc, by have := keptChar_le_255 (hkept c hc); omega⟩)
  have hsub1 : subNonKept (normalizeList l) = normalizeList l :=
    subNonKeptAux_id _ hkept false
  have hsub2 : subSpaces (normalizeList l) = normalizeList l :=
    subSpacesAux_id _ (fun c hc h => keptChar_space (hkept c hc) h) hch false (by simp)
  show stripL (subSpaces (subNonKept ((stripL (normalizeList l)).flatMap lowerPy)))
      = normalizeList l
  rw [hstrip, hflat, hsub1, hsub2, hstrip]

/-- C6: `normalize` is idempotent, `normalize(normalize(x)) = normalize(x)`
for every string `x`. -/
theorem C6_normalize_idempotent (x : String) :
    normalize_name (normalize_name x) = normalize_name x :=
  congrArg String.mk (normalizeList_idem x.data)

theorem lcsLen_comm (a b : List Char) : lcsLen a b = lcsLen b a := by
  induction a, b using lcsLen.induct with
  | case1 x => cases x <;> simp [lcsLen]
  | case2 h t => simp [lcsLen]
  | case3 as b bs ih => simp [lcsLen, ih]
  | case4 a as b bs hab ih1 ih2 =>
    have hba : ¬b = a := fun h => hab h.symm
    simp only [lcsLen, if_neg hab, if_neg hba]
    rw [ih1, ih2, Nat.max_comm]

theorem lcsLen_le_left (a b : List Char) : lcsLen a b ≤ a.length := by
  induction a, b using lcsLen.induct with
  | case1 x => simp [lcsLen]
  | case2 h t => simp [lcsLen]
  | case3 as b bs ih =>
    simp [lcsLen]
    omega
  | case4 a as b bs hab ih1 ih2 =>
    simp only [lcsLen, if_neg hab, List.length_cons]
    simp only [List.length_cons] at ih1
    omega

theorem lcsLen_le_right (a b : List Char) : lcsLen a b ≤ b.length := by
  rw [lcsLen_comm]
  exact lcsLen_le_left b a

theorem ratioQ_comm (a b : List Char) : ratioQ a b = ratioQ b a := by
  unfold ratioQ
  rw [lcsLen_comm a b, Nat.add_comm a.length b.length]

theorem ratioQ_nonneg (a b : List Char) : 0 ≤ ratioQ a b := by
  unfold ratioQ
  split
  · norm_num
  · rw [Rat.mkRat_eq_div]
    apply div_nonneg <;> positivity

theorem ratioQ_le_100 (a b : List Char) : ratioQ a b ≤ 100 := by
  unfold ratioQ
  split
  · norm_num
  · rename_i hne
    have h1 := lcsLen_le_left a b
    have h2 := lcsLen_le_right a b
    have hpos : 0 < a.length + b.length := Nat.pos_of_ne_zero hne
    rw [Rat.mkRat_eq_div, div_le_iff₀ (by exact_mod_cast hpos)]
    have hn : (200 * lcsLen a b : ℕ) ≤ 100 * (a.length + b.length) := by omega
    push_cast
    exact_mod_cast hn

theorem windows_of_lt (n : Nat) (l : List Char) (h : l.length < n) : windows n l = [] := by
  cases l with
  | nil =>
    rw [windows, if_neg]
    omega
  | cons c cs =>
    rw [windows, if_neg]
    simp at h
    omega

theorem windows_self (l : List Char) : windows l.length l = [l] := by
  cases l with
  | nil => rfl
  | cons c cs =>
    rw [List.length_cons, windows, if_pos (le_refl _)]
    rw [windows_of_lt _ _ (by omega)]
    rw [show (c :: cs).take (cs.length + 1) = c :: cs from by simp]

theorem foldr_max_nonneg (xs : List ℚ) : 0 ≤ xs.foldr max 0 := by
  induction xs with
  | nil => simp
  | cons x rest ih => exact le_trans ih (le_max_right _ _)

theorem foldr_max_le (xs : List ℚ) (h : ∀ x ∈ xs, x ≤ 100) : xs.foldr max 0 ≤ 100 := by
  induction xs with
  | nil => norm_num
  | cons x rest ih =>
    simp only [List.foldr_cons]
    exact max_le (h x (List.mem_cons_self _ _)) (ih fun y hy => h y (List.mem_cons_of_mem _ hy))

theorem bestWindowScore_nonneg (s l : List Char) : 0 ≤ bestWindowScore s l :=
  foldr_max_nonneg _

theorem bestWindowScore_le_100 (s l : List Char) : bestWindowScore s l ≤ 100 := by
  apply foldr_max_le
  intro x hx
  obtain ⟨w, _, rfl⟩ := List.mem_map.1 hx
  exact ratioQ_le_100 s w

theorem bestWindowScore_self_len (s l : List Char) (h : s.length = l.length) :
    bestWindowScore s l = ratioQ s l := by
  unfold bestWindowScore
  rw [h, windows_self]
  simp only [List.map_cons, List.map_nil, List.foldr_cons, List.foldr_nil]
  exact max_eq_left (ratioQ_nonneg s l)

theorem partRatioScore_comm (a b : List Char) : partRatioScore a b = partRatioScore b a := by
  unfold partRatioScore
  rcases lt_trichotomy a.length b.length with h | h | h
  · rw [if_pos (le_of_lt h), if_neg (not_le.mpr h),
      Nat.max_comm b.length a.length, Nat.min_comm b.length a.length]
  · rw [if_pos (le_of_eq h), if_pos (le_of_eq h.symm),
      bestWindowScore_self_len a b h, bestWindowScore_self_len b a h.symm, ratioQ_comm,
      Nat.max_comm b.length a.length, Nat.min_comm b.length a.length]
  · rw [if_neg (not_le.mpr h), if_pos (le_of_lt h),
      Nat.max_comm b.length a.length, Nat.min_comm b.length a.length]

theorem partRatioScore_nonneg (a b : List Char) : 0 ≤ partRatioScore a b := by
  unfold partRatioScore
  apply mul_nonneg
  · split
    · exact bestWindowScore_nonneg _ _
    · exact bestWindowScore_nonneg _ _
  · split <;> norm_num

theorem partRatioScore_le_100 (a b : List Char) : partRatioScore a b ≤ 100 := by
  unfold partRatioScore
  have hb : (if a.length ≤ b.length then bestWindowScore a b else bestWindowScore b a) ≤ 100 := by
    split
    · exact bestWindowScore_le_100 _ _
    · exact bestWindowScore_le_100 _ _
  have hb0 : 0 ≤ (if a.length ≤ b.length then bestWindowScore a b else bestWindowScore b a) := by
    split
    · exact bestWindowScore_nonneg _ _
    · exact bestWindowScore_nonneg _ _
  have hd : (if max a.length b.length ≤ 8 * min a.length b.length then (9 : ℚ) / 10
      else (6 : ℚ) / 10) ≤ 1 := by
    split <;> norm_num
  have hd0 : 0 ≤ (if max a.length b.length ≤ 8 * min a.length b.length then (9 : ℚ) / 10
      else (6 : ℚ) / 10) := by
    split <;> norm_num
  calc _ ≤ (100 : ℚ) * 1 := mul_le_mul hb hd hd0 (by norm_num)
    _ = 100 := by norm_num

theorem tokenSetScore_comm (a b : List Char) : tokenSetScore a b = tokenSetScore b a :=
  ratioQ_comm _ _

theorem WRatio_comm (a b : List Char) : WRatio a b = WRatio b a := by
  unfold WRatio
  rw [ratioQ_comm a b, partRatioScore_comm a b, tokenSetScore_comm a b]

theorem WRatio_nonneg (a b : List Char) : 0 ≤ WRatio a b :=
  le_trans (ratioQ_nonneg a b) (le_trans (le_max_left _ _) (le_max_left _ _))

theorem WRatio_le_100 (a b : List Char) : WRatio a b ≤ 100 :=
  max_le (max_le (ratioQ_le_100 a b) (partRatioScore_le_100 a b)) (ratioQ_le_100 _ _)

/-- C9: the similarity score used by the ranker is symmetric in its two
arguments: `score(a,b) = score(b,a)`. -/
theorem C9_score_symmetric (a b : List Char) : WRatio a b = WRatio b a :=
  WRatio_comm a b

theorem dictInsert_hit {α : Type} (k : Int) (v v0 : α) (rest : List (Int × α)) :
    dictInsert k v ((k, v0) :: rest) = (k, v) :: rest := by
  rw [dictInsert, if_pos rfl]

theorem dictInsert_miss {α : Type} (k : Int) (v : α) (k0 : Int) (v0 : α)
    (rest : List (Int × α)) (h : k0 ≠ k) :
    dictInsert k v ((k0, v0) :: rest) = (k0, v0) :: dictInsert k v rest := by
  rw [dictInsert, if_neg h]

theorem mem_keys_dictInsert {α : Type} (k : Int) (v : α) (d : List (Int × α)) (k' : Int) :
    k' ∈ (dictInsert k v d).map Prod.fst ↔ k' = k ∨ k' ∈ d.map Prod.fst := by
  induction d with
  | nil => simp [dictInsert]
  | cons p rest ih =>
    obtain ⟨k0, v0⟩ := p
    by_cases h : k0 = k
    · subst h
      rw [dictInsert_hit]
      simp only [List.map_cons, List.mem_cons]
      tauto
    · rw [dictInsert_miss _ _ _ _ _ h]
      simp only [List.map_cons, List.mem_cons, ih]
      tauto

theorem keys_nodup_dictInsert {α : Type} (k : Int) (v : α) (d : List (Int × α))
    (h : (d.map Prod.fst).Nodup) : ((dictInsert k v d).map Prod.fst).Nodup := by
  induction d with
  | nil => simp [dictInsert]
  | cons p rest ih =>
    obtain ⟨k0, v0⟩ := p
    simp only [List.map_cons, List.nodup_cons] at h
    by_cases hk : k0 = k
    · subst hk
      rw [dictInsert_hit]
      simp only [List.map_cons, List.nodup_cons]
      exact h
    · rw [dictInsert_miss _ _ _ _ _ hk]
      simp only [List.map_cons, List.nodup_cons]
      constructor
      · intro hc
        rcases (mem_keys_dictInsert k v rest k0).1 hc with h' | h'
        · exact hk h'
        · exact h.1 h'
      · exact ih h.2

theorem keys_nodup_foldl {α : Type} (ps : List (Int × α)) :
    ∀ d : List (Int × α), (d.map Prod.fst).Nodup →
      ((ps.foldl (fun d kv => dictInsert kv.1 kv.2 d) d).map Prod.fst).Nodup := by
  induction ps with
  | nil => intro d h; exact h
  | cons p rest ih =>
    intro d h
    exact ih _ (keys_nodup_dictInsert _ _ _ h)

theorem dict_keys_nodup {α : Type} (ps : List (Int × α)) :
    ((dictOfList ps).map Prod.fst).Nodup :=
  keys_nodup_foldl ps [] (by simp)

theorem mem_dictInsert {α : Type} (k : Int) (v : α) (d : List (Int × α)) (e : Int × α)
    (h : e ∈ dictInsert k v d) : e = (k, v) ∨ e ∈ d := by
  induction d with
  | nil => simpa [dictInsert] using h
  | cons p rest ih =>
    obtain ⟨k0, v0⟩ := p
    by_cases hk : k0 = k
    · subst hk
      rw [dictInsert_hit] at h
      rcases List.mem_cons.1 h with h' | h'
      · exact Or.inl h'
      · exact Or.inr (List.mem_cons_of_mem _ h')
    · rw [dictInsert_miss _ _ _ _ _ hk] at h
      rcases List.mem_cons.1 h with h' | h'
      · exact Or.inr (h' ▸ List.mem_cons_self _ _)
      · rcases ih h' with h'' | h''
        · exact Or.inl h''
        · exact Or.inr (List.mem_cons_of_mem _ h'')

theorem mem_foldl_dictInsert {α : Type} (ps : List (Int × α)) :
    ∀ (d : List (Int × α)) (e : Int × α),
      e ∈ ps.foldl (fun d kv => dictInsert kv.1 kv.2 d) d → e ∈ ps ∨ e ∈ d := by
  induction ps with
  | nil => intro d e h; exact Or.inr h
  | cons p rest ih =>
    intro d e h
    rcases ih _ e h with h' | h'
    · exact Or.inl (List.mem_cons_of_mem _ h')
    · rcases mem_dictInsert _ _ _ _ h' with h'' | h''
      · exact Or.inl (h'' ▸ List.mem_cons_self _ _)
      · exact Or.inr h''

theorem mem_dictOfList {α : Type} (ps : List (Int × α)) (e : Int × α)
    (h : e ∈ dictOfList ps) : e ∈ ps := by
  rcases mem_foldl_dictInsert ps [] e h with h' | h'
  · exact h'
  · simp at h'

theorem dlookup_dictInsert {α : Type} (k₀ k : Int) (v : α) (d : List (Int × α)) :
    dlookup k₀ (dictInsert k v d) = if k = k₀ then some v else dlookup k₀ d := by
  induction d with
  | nil =>
    rw [show dictInsert k v ([] : List (Int × α)) = [(k, v)] from rfl]
    simp [dlookup]
  | cons p rest ih =>
    obtain ⟨k0, v0⟩ := p
    by_cases hk : k0 = k
    · subst hk
      rw [dictInsert_hit, dlookup, dlookup]
      by_cases hq : k0 = k₀
      · rw [if_pos hq, if_pos hq]
      · rw [if_neg hq, if_neg hq, if_neg hq]
    · rw [dictInsert_miss _ _ _ _ _ hk, dlookup, dlookup, ih]
      by_cases hq : k0 = k₀
      · subst hq
        rw [if_pos rfl, if_neg (fun h => hk h.symm), if_pos rfl]
      · rw [if_neg hq, if_neg hq]

theorem getLast?_cons_or {α : Type} (p : α) (l : List α) :
    (p :: l).getLast? = l.getLast?.or (some p) := by
  induction l generalizing p with
  | nil => rfl
  | cons x xs ih =>
    rw [List.getLast?_cons_cons, ih x, Option.or_assoc]
    rfl

theorem optionMapOr {α β : Type} (f : α → β) (o o' : Option α) :
    (o.or o').map f = (o.map f).or (o'.map f) := by
  cases o <;> rfl

theorem dlookup_foldl {α : Type} (ps : List (Int × α)) (k : Int) :
    ∀ d : List (Int × α),
      dlookup k (ps.foldl (fun d kv => dictInsert kv.1 kv.2 d) d) =
        (((ps.filter (fun p => p.1 = k)).getLast?).map Prod.snd).or (dlookup k d) := by
  induction ps with
  | nil =>
    intro d
    simp
  | cons p rest ih =>
    intro d
    obtain ⟨kp, vp⟩ := p
    rw [List.foldl_cons, ih, dlookup_dictInsert]
    by_cases hq : kp = k
    · rw [if_pos hq]
      rw [List.filter_cons_of_pos (by simp [hq])]
      rw [getLast?_cons_or, optionMapOr, Option.or_assoc]
      rfl
    · rw [if_neg hq]
      rw [List.filter_cons_of_neg (by simp [hq])]

theorem dlookup_dictOfList {α : Type} (ps : List (Int × α)) (k : Int) :
    dlookup k (dictOfList ps) = ((ps.filter (fun p => p.1 = k)).getLast?).map Prod.snd := by
  rw [show dictOfList ps = ps.foldl (fun d kv => dictInsert kv.1 kv.2 d) [] from rfl,
    dlookup_foldl, show dlookup k ([] : List (Int × α)) = none from rfl, Option.or_none]

theorem mem_extract (q : List Char) (choices : List (Int × List Char)) (limit : Nat)
    (m : List Char × ℚ × Int) (h : m ∈ extract q choices limit) :
    ∃ kv ∈ choices, m = (kv.2, WRatio q kv.2, kv.1) := by
  unfold extract at h
  have h1 := List.mem_of_mem_take h
  have h2 := (List.perm_insertionSort scoreRel _).mem_iff.1 h1
  obtain ⟨kv, hkv, rfl⟩ := List.mem_map.1 h2
  exact ⟨kv, hkv, rfl⟩

theorem extract_sorted (q : List Char) (choices : List (Int × List Char)) (limit : Nat) :
    List.Pairwise scoreRel (extract q choices limit) := by
  unfold extract
  exact List.Pairwise.sublist (List.take_sublist _ _) (List.sorted_insertionSort scoreRel _)

theorem extract_keys_nodup (q : List Char) (choices : List (Int × List Char)) (limit : Nat)
    (h : (choices.map Prod.fst).Nodup) :
    ((extract q choices limit).map (fun m => m.2.2)).Nodup := by
  unfold extract
  have hperm :=
    (List.perm_insertionSort scoreRel
      (choices.map (fun kv => (kv.2, WRatio q kv.2, kv.1)))).map
      (fun m : List Char × ℚ × Int => m.2.2)
  have hkeys : (choices.map (fun kv => (kv.2, WRatio q kv.2, kv.1))).map
      (fun m : List Char × ℚ × Int => m.2.2) = choices.map Prod.fst := by
    rw [List.map_map]
    rfl
  have hnodup : ((List.insertionSort scoreRel
      (choices.map (fun kv => (kv.2, WRatio q kv.2, kv.1)))).map
      (fun m : List Char × ℚ × Int => m.2.2)).Nodup := by
    rw [List.Perm.nodup_iff hperm, hkeys]
    exact h
  exact (((List.take_sublist limit _)).map _).nodup hnodup

theorem dlookup_id_to_row (cands : List Row) (k : Int) :
    dlookup k (dictOfList (cands.map (fun r => (r.id, r)))) =
      (cands.filter (fun r => r.id = k)).getLast? := by
  rw [dlookup_dictOfList]
  induction cands with
  | nil => rfl
  | cons r rest ih =>
    by_cases hr : r.id = k
    · rw [List.map_cons, List.filter_cons_of_pos (by simp [hr]),
        List.filter_cons_of_pos (by simp [hr]), getLast?_cons_or, getLast?_cons_or,
        optionMapOr, ih]
      rfl
    · rw [List.map_cons, List.filter_cons_of_neg (by simp [hr]),
        List.filter_cons_of_neg (by simp [hr]), ih]

theorem getLast_filter_id (cands : List Row) (k : Int) (rr : Row)
    (h : (cands.filter (fun r => r.id = k)).getLast? = some rr) : rr.id = k := by
  have hmem := List.mem_of_mem_getLast? h
  simpa using List.of_mem_filter hmem

/-- C7: the ranker's output is ordered non-increasing by score, every score
lies in [0,100], the length is at most `TOP_K` (10), and an empty candidate
set yields an empty output. -/
theorem C7_ranker_output (q_norm : List Char) (cands : List Row) :
    List.Pairwise (fun a b : Ranked => b.score ≤ a.score) (rank_candidates q_norm cands) ∧
    (∀ e ∈ rank_candidates q_norm cands, 0 ≤ e.score ∧ e.score ≤ 100) ∧
    (rank_candidates q_norm cands).length ≤ TOP_K ∧
    (cands = [] → rank_candidates q_norm cands = []) := by
  refine ⟨?_, ?_, ?_, ?_⟩
  · simp only [rank_candidates]
    rw [List.pairwise_map]
    exact extract_sorted q_norm _ TOP_K
  · simp only [rank_candidates]
    intro e he
    obtain ⟨m, hm, rfl⟩ := List.mem_map.1 he
    obtain ⟨kv, hkv, rfl⟩ := mem_extract _ _ _ m hm
    exact ⟨WRatio_nonneg _ _, WRatio_le_100 _ _⟩
  · simp only [rank_candidates]
    rw [List.length_map, length_extract]
    exact Nat.min_le_left _ _
  · rintro rfl
    rfl

theorem rank_entry_id (q_norm : List Char) (cands : List Row)
    (m : List Char × ℚ × Int)
    (hm : m ∈ extract q_norm (dictOfList (cands.map (fun r => (r.id, r.norm)))) TOP_K) :
    ((dlookup m.2.2 (dictOfList (cands.map (fun r => (r.id, r))))).getD dfltRow).id = m.2.2 ∧
    (cands.filter (fun r => r.id = m.2.2)).getLast? =
      some ((dlookup m.2.2 (dictOfList (cands.map (fun r => (r.id, r))))).getD dfltRow) := by
  obtain ⟨kv, hkv, rfl⟩ := mem_extract _ _ _ m hm
  have hkv' := mem_dictOfList _ _ hkv
  obtain ⟨r0, hr0, hkveq⟩ := List.mem_map.1 hkv'
  have hid : r0.id = kv.1 := by rw [← hkveq]
  have hmem : r0 ∈ cands.filter (fun r => r.id = kv.1) :=
    List.mem_filter.2 ⟨hr0, by simp [hid]⟩
  have hnonempty : cands.filter (fun r => r.id = kv.1) ≠ [] := by
    intro h
    rw [h] at hmem
    simp at hmem
  obtain ⟨rr, hrr⟩ : ∃ rr, (cands.filter (fun r => r.id = kv.1)).getLast? = some rr := by
    cases hgl : (cands.filter (fun r => r.id = kv.1)).getLast? with
    | none => exact absurd (List.getLast?_eq_none_iff.1 hgl) hnonempty
    | some rr => exact ⟨rr, rfl⟩
  constructor
  · show ((dlookup kv.1 (dictOfList (cands.map (fun r => (r.id, r))))).getD dfltRow).id = kv.1
    rw [dlookup_id_to_row, hrr]
    exact getLast_filter_id cands kv.1 rr hrr
  · show (cands.filter (fun r => r.id = kv.1)).getLast? =
      some ((dlookup kv.1 (dictOfList (cands.map (fun r => (r.id, r))))).getD dfltRow)
    rw [dlookup_id_to_row, hrr]
    rfl

/-- C10: the ranker's output carries at most one entry per candidate id, and
the row fields attached to an id are those of the last input row with that
id (both dict comprehensions keep the last write per key). -/
theorem C10_ranker_dedup_last (q_norm : List Char) (cands : List Row) :
    ((rank_candidates q_norm cands).map Ranked.id).Nodup ∧
    (∀ e ∈ rank_candidates q_norm cands,
      (cands.filter (fun r => r.id = e.id)).getLast? =
        some { id := e.id, name := e.name, norm := e.norm }) := by
  constructor
  · simp only [rank_candidates]
    rw [List.map_map]
    have hpt : ∀ m ∈ extract q_norm (dictOfList (cands.map (fun r => (r.id, r.norm)))) TOP_K,
        (Ranked.id ∘ (fun m : List Char × ℚ × Int =>
          ({ id := ((dlookup m.2.2 (dictOfList (cands.map (fun r => (r.id, r))))).getD dfltRow).id,
             name := ((dlookup m.2.2 (dictOfList (cands.map (fun r => (r.id, r))))).getD dfltRow).name,
             norm := ((dlookup m.2.2 (dictOfList (cands.map (fun r => (r.id, r))))).getD dfltRow).norm,
             score := m.2.1 } : Ranked))) m = (fun m : List Char × ℚ × Int => m.2.2) m := by
      intro m hm
      exact (rank_entry_id q_norm cands m hm).1
    rw [List.map_congr_left hpt]
    exact extract_keys_nodup q_norm _ TOP_K (dict_keys_nodup _)
  · simp only [rank_candidates]
    intro e he
    obtain ⟨m, hm, rfl⟩ := List.mem_map.1 he
    obtain ⟨hid, hlast⟩ := rank_entry_id q_norm cands m hm
    dsimp only
    generalize hR : (dlookup m.2.2 (dictOfList (List.map (fun r => (r.id, r)) cands))).getD dfltRow = R
    rw [hR] at hid hlast
    obtain ⟨ri, rn, rm⟩ := R
    dsimp only at hid ⊢
    subst hid
    exact hlast

set_option maxRecDepth 4000 in
/-- Witness for C7: on a concrete query and candidate the single ranked entry
has a score within [0,100], and an empty candidate list ranks to the empty
list. -/
theorem C7_ranker_output_witness :
    (0 ≤ (⟨1, ['x'], ['a', 'b'], 100⟩ : Ranked).score ∧
      (⟨1, ['x'], ['a', 'b'], 100⟩ : Ranked).score ≤ 100) ∧
    rank_candidates ['a'] [] = [] :=
  ⟨(C7_ranker_output ['a', 'b'] [⟨1, ['x'], ['a', 'b']⟩]).2.1 ⟨1, ['x'], ['a', 'b'], 100⟩
      (by with_unfolding_all decide),
   (C7_ranker_output ['a'] []).2.2.2 rfl⟩

set_option maxRecDepth 4000 in
/-- Witness for C10 at a candidate list that repeats id 1: the ranked output
has unique ids and carries the fields of the later row. -/
theorem C10_ranker_dedup_last_witness :
    ((rank_candidates ['y'] [⟨1, ['a'], ['x']⟩, ⟨1, ['b'], ['y']⟩]).map Ranked.id).Nodup ∧
    (([⟨1, ['a'], ['x']⟩, ⟨1, ['b'], ['y']⟩] : List Row).filter
        (fun r => r.id = (⟨1, ['b'], ['y'], (100 : ℚ)⟩ : Ranked).id)).getLast? =
      some { id := (⟨1, ['b'], ['y'], (100 : ℚ)⟩ : Ranked).id,
             name := (⟨1, ['b'], ['y'], (100 : ℚ)⟩ : Ranked).name,
             norm := (⟨1, ['b'], ['y'], (100 : ℚ)⟩ : Ranked).norm } :=
  ⟨(C10_ranker_dedup_last ['y'] [⟨1, ['a'], ['x']⟩, ⟨1, ['b'], ['y']⟩]).1,
   (C10_ranker_dedup_last ['y'] [⟨1, ['a'], ['x']⟩, ⟨1, ['b'], ['y']⟩]).2
      ⟨1, ['b'], ['y'], 100⟩ (by with_unfolding_all decide)⟩

end RFQ
